import Mathlib

/-!
# Verification of the pipeline orchestrator

Shallow embedding of `catalog/stacks/pipelines/lib/orchestrator.py`.

Python values flowing through the orchestrator (step inputs, step results,
context entries) are modelled by the inductive type `Value`; Python `dict`s
with string keys are modelled as insertion-ordered association lists
(`Dict`), with `dictSet` mirroring `d[k] = v` (replace in place, else append)
and `dictGet?`/`dictGetD` mirroring `d.get(k)` / `d.get(k, default)`.

A step's asynchronous `action` is modelled as a function from the resolved
keyword arguments to `Except String Value`: `.error m` models the action
raising an exception whose `str(e)` is `m`, `.ok v` a normal return.  The
two `datetime.now().isoformat()` stamps are modelled as explicit string
parameters `started` / `completed` of `Pipeline.run`.  The `print` calls
have no effect on any data and are dropped.
-/

inductive Value where
  | none : Value
  | bool : Bool → Value
  | int : Int → Value
  | str : String → Value
  | dict : List (String × Value) → Value
deriving Repr

abbrev Dict := List (String × Value)

/-- `d.get(k)` without default: `some v` when `k` is a key of `d`. -/
def dictGet? : Dict → String → Option Value
  | [], _ => Option.none
  | (k', v') :: rest, k => if k' = k then some v' else dictGet? rest k

/-- `d.get(k, dflt)`. Python's `d.get(k)` is `dictGetD d k Value.none`. -/
def dictGetD (d : Dict) (k : String) (dflt : Value) : Value :=
  (dictGet? d k).getD dflt

/-- `d[k] = v`: replace the entry in place when the key exists, else append. -/
def dictSet : Dict → String → Value → Dict
  | [], k, v => [(k, v)]
  | (k', v') :: rest, k, v =>
    if k' = k then (k, v) :: rest else (k', v') :: dictSet rest k v

/-- The keys of a dict, in order. -/
def dictKeys (d : Dict) : List String := d.map Prod.fst

/-- `ref.split(".", 1)` for a `ref` known to contain a `.`
(Python strings are modelled as their character lists here):
the part before the first dot and everything after it. -/
def refSplit (ref : List Char) : List Char × List Char :=
  (ref.takeWhile (fun c => c ≠ '.'), (ref.dropWhile (fun c => c ≠ '.')).drop 1)

/-- `context.get(step_name, {}).get(output_key)` from line 30 of the source:
a missing step resolves against `{}`; a present non-dict value has no `.get`
attribute, which raises (modelled as `.error`). -/
def refLookup (context : Dict) (step_name output_key : String) : Except String Value :=
  match dictGet? context step_name with
  | some (Value.dict d) => Except.ok (dictGetD d output_key Value.none)
  | some _ => Except.error "AttributeError: object has no attribute get"
  | Option.none => Except.ok Value.none

/-- Resolution of a reference `ref` (the string after the `$`), lines 27-33:
split on the first `.` when one is present, else look the whole `ref` up. -/
def resolveRef (context : Dict) (ref : List Char) : Except String Value :=
  if ref.contains '.' then
    let p := refSplit ref
    refLookup context p.1.asString p.2.asString
  else
    Except.ok (dictGetD context ref.asString Value.none)

/-- Resolution of one input binding value, lines 25-35.  The Python guard
`isinstance(value, str) and value.startswith("$")` holds exactly when the
value is a string whose first character is `'$'`; `value[1:]` is the
remaining characters. -/
def resolveValue (context : Dict) (v : Value) : Except String Value :=
  match v with
  | Value.str s =>
    match s.toList with
    | c :: ref => if c = '$' then resolveRef context ref else Except.ok v
    | [] => Except.ok v
  | _ => Except.ok v

/-- The `for key, value in self.inputs.items()` loop building
`resolved_inputs`; the first raising resolution aborts the loop. -/
def resolveInputsAux (context : Dict) : List (String × Value) → Dict → Except String Dict
  | [], acc => Except.ok acc
  | (k, v) :: rest, acc =>
    match resolveValue context v with
    | Except.ok rv => resolveInputsAux context rest (dictSet acc k rv)
    | Except.error e => Except.error e

def resolveInputs (context : Dict) (inputs : List (String × Value)) : Except String Dict :=
  resolveInputsAux context inputs []

/-- A single step in a pipeline (dataclass `Step`). -/
structure Step where
  name : String
  action : Dict → Except String Value
  inputs : List (String × Value) := []
  outputs : List String := []

/-- `Step.run`: resolve inputs from context, run the action.  The step only
reads `context`; an exception from resolution or from the action propagates
as `.error`. -/
def Step.run (s : Step) (context : Dict) : Except String Value :=
  match resolveInputs context s.inputs with
  | Except.ok ri => s.action ri
  | Except.error e => Except.error e

/-- A sequence of steps (dataclass `Pipeline`). -/
structure Pipeline where
  name : String
  description : String := ""
  steps : List Step := []

def Pipeline.add_step (p : Pipeline) (s : Step) : Pipeline :=
  { p with steps := p.steps ++ [s] }

/-- The `{"error": str(e)}` mapping stored for a failed step. -/
def errEntry (m : String) : Value := Value.dict [("error", Value.str m)]

/-- The `for i, step in enumerate(self.steps)` loop of `Pipeline.run`
(lines 63-74), threading `context` and `results`: on success the result is
recorded in both; on failure the error entry and `_error` are recorded and
the loop stops (`break`). -/
def runSteps : List Step → Dict → Dict → Dict × Dict
  | [], ctx, results => (results, ctx)
  | s :: rest, ctx, results =>
    match s.run ctx with
    | Except.ok r => runSteps rest (dictSet ctx s.name r) (dictSet results s.name r)
    | Except.error e =>
      (dictSet results s.name (errEntry e), dictSet ctx "_error" (Value.str e))

/-- The context right before the step loop: `initial_context or {}` with
`_pipeline` and `_started` stamped (lines 56-59).  `initial_context or {}`
evaluates to the caller's mapping when it is truthy (non-empty) and to a
fresh `{}` otherwise; either way its entries are those of `init.getD []`. -/
def startCtx (p : Pipeline) (init : Option Dict) (started : String) : Dict :=
  dictSet (dictSet (init.getD []) "_pipeline" (Value.str p.name))
    "_started" (Value.str started)

/-- `Pipeline.run`, returning both the `results` mapping handed back to the
caller and the final context stored under `"_context"` (lines 55-79). -/
def Pipeline.runWithContext (p : Pipeline) (init : Option Dict)
    (started completed : String) : Dict × Dict :=
  let st := runSteps p.steps (startCtx p init started) []
  let ctx := dictSet st.2 "_completed" (Value.str completed)
  (dictSet st.1 "_context" (Value.dict ctx), ctx)

def Pipeline.run (p : Pipeline) (init : Option Dict)
    (started completed : String) : Dict :=
  (p.runWithContext init started completed).1

def Pipeline.finalContext (p : Pipeline) (init : Option Dict)
    (started completed : String) : Dict :=
  (p.runWithContext init started completed).2

/-- What the caller's `initial_context` dictionary holds after `run`
returns.  `context = initial_context or {}` aliases the caller's mapping
when it is truthy (non-empty), and every later write mutates it in place,
so the caller's mapping ends up equal to the final context; when the
caller's mapping is empty (falsy) a fresh `{}` is used and the caller's
mapping is untouched. -/
def callerContextAfterRun (p : Pipeline) (init : Dict)
    (started completed : String) : Dict :=
  if init.isEmpty then init
  else p.finalContext (some init) started completed

/-- Demonstration action returning `{"x": 1}`. -/
def okAction : Dict → Except String Value :=
  fun _ => Except.ok (Value.dict [("x", Value.int 1)])

/-- Demonstration action that always raises `boom`. -/
def boomAction : Dict → Except String Value :=
  fun _ => Except.error "boom"

/-- Four-step demonstration pipeline whose step at index 1 fails. -/
def demoPipeline : Pipeline :=
  { name := "demo", description := "",
    steps := [
      { name := "s1", action := okAction },
      { name := "s2", action := boomAction },
      { name := "s3", action := okAction },
      { name := "s4", action := okAction } ] }

/-- Two-step demonstration pipeline with no failures. -/
def goodPipeline : Pipeline :=
  { name := "good", description := "",
    steps := [
      { name := "s1", action := okAction },
      { name := "s2", action := okAction } ] }

/-- A pipeline with no steps. -/
def emptyPipeline : Pipeline := { name := "p", description := "", steps := [] }

/-- A non-empty caller-supplied initial context. -/
def seededInit : Dict := [("seed", Value.int 1)]

/-- `run` called twice on the same `Pipeline` object with no caller-supplied
context; the timestamps of each call are explicit. -/
def Pipeline.runTwice (p : Pipeline) (t1 t2 t3 t4 : String) : Dict × Dict :=
  (p.run Option.none t1 t2, p.run Option.none t3 t4)

/-! ## Execution traces

The following definitions replay the step loop of `Pipeline.run` to name the
quantities the specification talks about: the index and message of the first
failing step, the `results` entries the loop produces, the names of the
successfully completed steps, and the context the loop leaves behind.  Each
follows the recursion of `runSteps` exactly. -/

/-- Index and exception message of the first step whose `run` raises,
in the context that step actually sees during the run. -/
def firstFailure : List Step → Dict → Option (Nat × String)
  | [], _ => Option.none
  | s :: rest, ctx =>
    match s.run ctx with
    | Except.ok r => (firstFailure rest (dictSet ctx s.name r)).map
        (fun q => (q.1 + 1, q.2))
    | Except.error e => some (0, e)

/-- The `(step name, recorded value)` pairs the loop adds to `results`,
in order: one per executed step, the last being the error entry when the
run fails. -/
def expectedEntries : List Step → Dict → List (String × Value)
  | [], _ => []
  | s :: rest, ctx =>
    match s.run ctx with
    | Except.ok r => (s.name, r) :: expectedEntries rest (dictSet ctx s.name r)
    | Except.error e => [(s.name, errEntry e)]

/-- The `(step name, result)` pairs of the successfully completed steps. -/
def successEntries : List Step → Dict → List (String × Value)
  | [], _ => []
  | s :: rest, ctx =>
    match s.run ctx with
    | Except.ok r => (s.name, r) :: successEntries rest (dictSet ctx s.name r)
    | Except.error _ => []

/-- The context as the step loop leaves it. -/
def expectedCtx : List Step → Dict → Dict
  | [], ctx => ctx
  | s :: rest, ctx =>
    match s.run ctx with
    | Except.ok r => expectedCtx rest (dictSet ctx s.name r)
    | Except.error e => dictSet ctx "_error" (Value.str e)

/-! ## Dictionary lemmas -/

theorem dictGet?_set_self (d : Dict) (k : String) (v : Value) :
    dictGet? (dictSet d k v) k = some v := by
  induction d with
  | nil => simp [dictSet, dictGet?]
  | cons hd tl ih =>
    obtain ⟨k', v'⟩ := hd
    by_cases h : k' = k <;> simp [dictSet, dictGet?, h, ih]

theorem dictGet?_set_ne (d : Dict) (k k' : String) (v : Value) (h : k ≠ k') :
    dictGet? (dictSet d k v) k' = dictGet? d k' := by
  induction d with
  | nil => simp [dictSet, dictGet?, h]
  | cons hd tl ih =>
    obtain ⟨k₀, v₀⟩ := hd
    by_cases h₀ : k₀ = k
    · subst h₀; simp [dictSet, dictGet?, h]
    · simp [dictSet, dictGet?, h₀, ih]

theorem dictSet_of_not_mem (d : Dict) (k : String) (v : Value)
    (h : k ∉ dictKeys d) : dictSet d k v = d ++ [(k, v)] := by
  induction d with
  | nil => simp [dictSet]
  | cons hd tl ih =>
    obtain ⟨k₀, v₀⟩ := hd
    simp only [dictKeys, List.map_cons, List.mem_cons] at h
    push_neg at h
    simp [dictSet, Ne.symm h.1, ih (by simpa [dictKeys] using h.2)]

theorem dictKeys_set (d : Dict) (k : String) (v : Value) (h : k ∉ dictKeys d) :
    dictKeys (dictSet d k v) = dictKeys d ++ [k] := by
  rw [dictSet_of_not_mem d k v h]; simp [dictKeys]

theorem dictGet?_append (d₁ d₂ : Dict) (k : String) :
    dictGet? (d₁ ++ d₂) k =
      match dictGet? d₁ k with
      | some v => some v
      | Option.none => dictGet? d₂ k := by
  induction d₁ with
  | nil => simp [dictGet?]
  | cons hd tl ih =>
    obtain ⟨k₀, v₀⟩ := hd
    by_cases h : k₀ = k <;> simp [dictGet?, h, ih]

theorem dictGet?_eq_none_of_not_mem (d : Dict) (k : String)
    (h : k ∉ dictKeys d) : dictGet? d k = Option.none := by
  induction d with
  | nil => simp [dictGet?]
  | cons hd tl ih =>
    obtain ⟨k₀, v₀⟩ := hd
    simp only [dictKeys, List.map_cons, List.mem_cons] at h
    push_neg at h
    simp [dictGet?, Ne.symm h.1, ih (by simpa [dictKeys] using h.2)]

theorem mem_dictKeys_of_get (d : Dict) (k : String) (v : Value)
    (h : dictGet? d k = some v) : k ∈ dictKeys d := by
  induction d with
  | nil => simp [dictGet?] at h
  | cons hd tl ih =>
    obtain ⟨k₀, v₀⟩ := hd
    by_cases h₀ : k₀ = k
    · simp [dictKeys, h₀]
    · simp only [dictGet?, h₀, if_false] at h
      have := ih h
      simp only [dictKeys, List.map_cons, List.mem_cons]
      exact Or.inr (by simpa [dictKeys] using this)

theorem dictGet?_of_mem_nodup (d : Dict) (k : String) (v : Value)
    (hmem : (k, v) ∈ d) (hnd : (dictKeys d).Nodup) : dictGet? d k = some v := by
  induction d with
  | nil => simp at hmem
  | cons hd tl ih =>
    obtain ⟨k₀, v₀⟩ := hd
    simp only [dictKeys, List.map_cons, List.nodup_cons] at hnd
    rcases List.mem_cons.mp hmem with heq | htl
    · obtain ⟨h1, h2⟩ := Prod.mk.injEq .. ▸ heq
      simp [dictGet?, h1.symm, h2]
    · have hk : k₀ ≠ k := by
        intro h; exact hnd.1 (h ▸ (List.mem_map.mpr ⟨(k, v), htl, rfl⟩))
      simp [dictGet?, hk, ih htl (by simpa [dictKeys] using hnd.2)]

theorem dictSet_length_le (d : Dict) (k : String) (v : Value) :
    (dictSet d k v).length ≤ d.length + 1 := by
  induction d with
  | nil => simp [dictSet]
  | cons hd tl ih =>
    obtain ⟨k₀, v₀⟩ := hd
    by_cases h : k₀ = k
    · simp [dictSet, h]
    · simp only [dictSet, h, if_false, List.length_cons]
      omega

theorem mem_dictKeys_set (d : Dict) (k' : String) (v : Value) (k : String)
    (h : k ∈ dictKeys d) : k ∈ dictKeys (dictSet d k' v) := by
  induction d with
  | nil => simp [dictKeys] at h
  | cons hd tl ih =>
    obtain ⟨k₀, v₀⟩ := hd
    simp only [dictKeys, List.map_cons, List.mem_cons] at h
    by_cases h₀ : k₀ = k'
    · subst h₀
      simpa [dictSet, dictKeys] using h
    · simp only [dictSet, if_neg h₀, dictKeys, List.map_cons, List.mem_cons]
      rcases h with h1 | h1
      · exact Or.inl h1
      · exact Or.inr (by simpa [dictKeys] using ih (by simpa [dictKeys] using h1))

theorem set_mem_dictKeys (d : Dict) (k : String) (v : Value) :
    k ∈ dictKeys (dictSet d k v) :=
  mem_dictKeys_of_get _ _ _ (dictGet?_set_self d k v)

/-! ## Lemmas about the step loop -/

theorem runSteps_snd (steps : List Step) : ∀ ctx res,
    (runSteps steps ctx res).2 = expectedCtx steps ctx := by
  induction steps with
  | nil => intro ctx res; rfl
  | cons s rest ih =>
    intro ctx res
    cases hrun : s.run ctx with
    | ok r =>
      simp only [runSteps, expectedCtx, hrun]
      exact ih _ _
    | error e => simp only [runSteps, expectedCtx, hrun]

theorem expectedEntries_names_sublist (steps : List Step) : ∀ ctx,
    List.Sublist ((expectedEntries steps ctx).map Prod.fst) (steps.map Step.name) := by
  induction steps with
  | nil => intro ctx; simp [expectedEntries]
  | cons s rest ih =>
    intro ctx
    cases hrun : s.run ctx with
    | ok r =>
      simp only [expectedEntries, hrun, List.map_cons]
      exact List.Sublist.cons₂ _ (ih _)
    | error e =>
      simp only [expectedEntries, hrun, List.map_cons, List.map_nil]
      exact List.Sublist.cons₂ _ (List.nil_sublist _)

theorem successEntries_names_sublist (steps : List Step) : ∀ ctx,
    List.Sublist ((successEntries steps ctx).map Prod.fst) (steps.map Step.name) := by
  induction steps with
  | nil => intro ctx; simp [successEntries]
  | cons s rest ih =>
    intro ctx
    cases hrun : s.run ctx with
    | ok r =>
      simp only [successEntries, hrun, List.map_cons]
      exact List.Sublist.cons₂ _ (ih _)
    | error e =>
      simp only [successEntries, hrun, List.map_nil]
      exact List.nil_sublist _

theorem runSteps_fst (steps : List Step) : ∀ ctx res,
    (∀ n ∈ (expectedEntries steps ctx).map Prod.fst, n ∉ dictKeys res) →
    ((expectedEntries steps ctx).map Prod.fst).Nodup →
    (runSteps steps ctx res).1 = res ++ expectedEntries steps ctx := by
  induction steps with
  | nil => intro ctx res _ _; simp [runSteps, expectedEntries]
  | cons s rest ih =>
    intro ctx res h1 h2
    cases hrun : s.run ctx with
    | ok r =>
      simp only [expectedEntries, hrun, List.map_cons] at h1 h2
      have hs : s.name ∉ dictKeys res := h1 s.name (List.mem_cons_self _ _)
      have hset : dictSet res s.name r = res ++ [(s.name, r)] :=
        dictSet_of_not_mem res s.name r hs
      have h1' : ∀ n ∈ (expectedEntries rest (dictSet ctx s.name r)).map Prod.fst,
          n ∉ dictKeys (dictSet res s.name r) := by
        intro n hn
        rw [hset]
        simp only [dictKeys, List.map_append, List.mem_append, List.map_cons,
          List.map_nil, List.mem_singleton]
        push_neg
        refine ⟨by simpa [dictKeys] using h1 n (List.mem_cons_of_mem _ hn), ?_⟩
        intro hcontra
        exact (List.nodup_cons.mp h2).1 (hcontra ▸ hn)
      have h2' := (List.nodup_cons.mp h2).2
      simp only [runSteps, hrun]
      rw [ih _ _ h1' h2', hset, expectedEntries, hrun]
      simp
    | error e =>
      simp only [expectedEntries, hrun, List.map_cons, List.map_nil] at h1
      have hs : s.name ∉ dictKeys res := h1 s.name (List.mem_cons_self _ _)
      simp only [runSteps, hrun, expectedEntries]
      rw [dictSet_of_not_mem res s.name (errEntry e) hs]

theorem runSteps_fst_length (steps : List Step) : ∀ ctx res,
    (runSteps steps ctx res).1.length ≤ res.length + steps.length := by
  induction steps with
  | nil => intro ctx res; simp [runSteps]
  | cons s rest ih =>
    intro ctx res
    cases hrun : s.run ctx with
    | ok r =>
      simp only [runSteps, hrun, List.length_cons]
      have := ih (dictSet ctx s.name r) (dictSet res s.name r)
      have h2 := dictSet_length_le res s.name r
      omega
    | error e =>
      simp only [runSteps, hrun, List.length_cons]
      have := dictSet_length_le res s.name (errEntry e)
      omega

theorem firstFailure_spec (steps : List Step) : ∀ ctx i m,
    firstFailure steps ctx = some (i, m) →
    ∃ hi : i < steps.length,
      (successEntries steps ctx).map Prod.fst = (steps.map Step.name).take i ∧
      expectedEntries steps ctx
        = successEntries steps ctx ++ [((steps.get ⟨i, hi⟩).name, errEntry m)] ∧
      dictGet? (expectedCtx steps ctx) "_error" = some (Value.str m) := by
  induction steps with
  | nil => intro ctx i m h; simp [firstFailure] at h
  | cons s rest ih =>
    intro ctx i m h
    cases hrun : s.run ctx with
    | ok r =>
      simp only [firstFailure, hrun, Option.map_eq_some'] at h
      obtain ⟨⟨j, m'⟩, hff, heq⟩ := h
      cases heq
      obtain ⟨hj, H1, H2, H3⟩ := ih (dictSet ctx s.name r) j m' hff
      refine ⟨by simpa using Nat.succ_lt_succ hj, ?_, ?_, ?_⟩
      · simp only [successEntries, hrun, List.map_cons, List.take_succ_cons, H1]
      · simp only [expectedEntries, successEntries, hrun, H2, List.cons_append,
          List.get_cons_succ]
      · simp only [expectedCtx, hrun, H3]
    | error e =>
      simp only [firstFailure, hrun, Option.some_inj, Prod.mk.injEq] at h
      obtain ⟨h1, h2⟩ := h
      subst h1; subst h2
      refine ⟨Nat.succ_pos _, ?_, ?_, ?_⟩
      · simp [successEntries, hrun]
      · simp [expectedEntries, successEntries, hrun]
      · simp only [expectedCtx, hrun]
        exact dictGet?_set_self _ _ _

theorem firstFailure_none_spec (steps : List Step) : ∀ ctx,
    firstFailure steps ctx = Option.none →
    expectedEntries steps ctx = successEntries steps ctx ∧
    (successEntries steps ctx).map Prod.fst = steps.map Step.name := by
  induction steps with
  | nil => intro ctx _; exact ⟨rfl, rfl⟩
  | cons s rest ih =>
    intro ctx h
    cases hrun : s.run ctx with
    | ok r =>
      simp only [firstFailure, hrun, Option.map_eq_none'] at h
      obtain ⟨H1, H2⟩ := ih _ h
      refine ⟨?_, ?_⟩
      · simp only [expectedEntries, successEntries, hrun, H1]
      · simp only [successEntries, hrun, List.map_cons, H2]
    | error e => simp [firstFailure, hrun] at h

theorem mem_dictKeys_expectedCtx (steps : List Step) : ∀ ctx k,
    k ∈ dictKeys ctx → k ∈ dictKeys (expectedCtx steps ctx) := by
  induction steps with
  | nil => intro ctx k h; exact h
  | cons s rest ih =>
    intro ctx k h
    cases hrun : s.run ctx with
    | ok r =>
      simp only [expectedCtx, hrun]
      exact ih _ _ (mem_dictKeys_set _ _ _ _ h)
    | error e =>
      simp only [expectedCtx, hrun]
      exact mem_dictKeys_set _ _ _ _ h

theorem expectedCtx_none (steps : List Step) : ∀ ctx,
    firstFailure steps ctx = Option.none →
    (∀ n ∈ (successEntries steps ctx).map Prod.fst, n ∉ dictKeys ctx) →
    ((successEntries steps ctx).map Prod.fst).Nodup →
    expectedCtx steps ctx = ctx ++ successEntries steps ctx := by
  induction steps with
  | nil => intro ctx _ _ _; simp [expectedCtx, successEntries]
  | cons s rest ih =>
    intro ctx hff h1 h2
    cases hrun : s.run ctx with
    | ok r =>
      simp only [firstFailure, hrun, Option.map_eq_none'] at hff
      simp only [successEntries, hrun, List.map_cons] at h1 h2
      have hs : s.name ∉ dictKeys ctx := h1 s.name (List.mem_cons_self _ _)
      have hset : dictSet ctx s.name r = ctx ++ [(s.name, r)] :=
        dictSet_of_not_mem ctx s.name r hs
      have h1' : ∀ n ∈ (successEntries rest (dictSet ctx s.name r)).map Prod.fst,
          n ∉ dictKeys (dictSet ctx s.name r) := by
        intro n hn
        rw [hset]
        simp only [dictKeys, List.map_append, List.mem_append, List.map_cons,
          List.map_nil, List.mem_singleton]
        push_neg
        refine ⟨by simpa [dictKeys] using h1 n (List.mem_cons_of_mem _ hn), ?_⟩
        intro hcontra
        exact (List.nodup_cons.mp h2).1 (hcontra ▸ hn)
      simp only [expectedCtx, successEntries, hrun]
      rw [ih _ hff h1' (List.nodup_cons.mp h2).2, hset]
      simp
    | error e => simp [firstFailure, hrun] at hff

theorem expectedCtx_fail (steps : List Step) : ∀ ctx i m,
    firstFailure steps ctx = some (i, m) →
    (∀ n ∈ (successEntries steps ctx).map Prod.fst, n ∉ dictKeys ctx) →
    ((successEntries steps ctx).map Prod.fst).Nodup →
    "_error" ∉ dictKeys ctx →
    "_error" ∉ (successEntries steps ctx).map Prod.fst →
    expectedCtx steps ctx
      = ctx ++ successEntries steps ctx ++ [("_error", Value.str m)] := by
  induction steps with
  | nil => intro ctx i m h _ _ _ _; simp [firstFailure] at h
  | cons s rest ih =>
    intro ctx i m hff h1 h2 he1 he2
    cases hrun : s.run ctx with
    | ok r =>
      simp only [firstFailure, hrun, Option.map_eq_some'] at hff
      obtain ⟨⟨j, m'⟩, hff', heq⟩ := hff
      cases heq
      simp only [successEntries, hrun, List.map_cons] at h1 h2 he2
      have hs : s.name ∉ dictKeys ctx := h1 s.name (List.mem_cons_self _ _)
      have hset : dictSet ctx s.name r = ctx ++ [(s.name, r)] :=
        dictSet_of_not_mem ctx s.name r hs
      have h1' : ∀ n ∈ (successEntries rest (dictSet ctx s.name r)).map Prod.fst,
          n ∉ dictKeys (dictSet ctx s.name r) := by
        intro n hn
        rw [hset]
        simp only [dictKeys, List.map_append, List.mem_append, List.map_cons,
          List.map_nil, List.mem_singleton]
        push_neg
        refine ⟨by simpa [dictKeys] using h1 n (List.mem_cons_of_mem _ hn), ?_⟩
        intro hcontra
        exact (List.nodup_cons.mp h2).1 (hcontra ▸ hn)
      have he1' : "_error" ∉ dictKeys (dictSet ctx s.name r) := by
        rw [hset]
        simp only [dictKeys, List.map_append, List.mem_append, List.map_cons,
          List.map_nil, List.mem_singleton]
        push_neg
        exact ⟨by simpa [dictKeys] using he1,
          fun hc => he2 (List.mem_cons.mpr (Or.inl hc))⟩
      simp only [expectedCtx, successEntries, hrun]
      rw [ih _ j m' hff' h1' (List.nodup_cons.mp h2).2 he1'
        (fun hc => he2 (List.mem_cons.mpr (Or.inr hc))), hset]
      simp
    | error e =>
      simp only [firstFailure, hrun, Option.some_inj, Prod.mk.injEq] at hff
      simp only [expectedCtx, successEntries, hrun, List.append_nil]
      rw [dictSet_of_not_mem ctx "_error" _ he1, hff.2]

theorem get_mem_take {α : Type} (l : List α) (n i : Nat) (hi : i < l.length)
    (hn : i < n) : l.get ⟨i, hi⟩ ∈ l.take n := by
  rw [List.get_eq_getElem]
  exact List.mem_take_iff_getElem.mpr ⟨i, Nat.lt_min.mpr ⟨hn, hi⟩, rfl⟩

theorem get_not_mem_take {α : Type} (l : List α) (hnd : l.Nodup) (n i : Nat)
    (hi : i < l.length) (hn : n ≤ i) : l.get ⟨i, hi⟩ ∉ l.take n := by
  intro hmem
  rw [List.get_eq_getElem] at hmem
  obtain ⟨j, hj, heq⟩ := List.mem_take_iff_getElem.mp hmem
  have hj2 := Nat.lt_min.mp hj
  have : j = i := (List.Nodup.getElem_inj_iff hnd).mp heq
  omega

/-! ## Reference-resolution lemmas -/

theorem resolveValue_dollar (context : Dict) (s : String) (ref : List Char)
    (h : s.toList = '$' :: ref) :
    resolveValue context (Value.str s) = resolveRef context ref := by
  simp only [resolveValue]
  rw [h]
  rfl

theorem takeWhile_until_dot (a b : List Char) (ha : a.contains '.' = false) :
    (a ++ '.' :: b).takeWhile (fun c => c ≠ '.') = a := by
  induction a with
  | nil => simp
  | cons c t ih =>
    simp only [List.contains_cons, Bool.or_eq_false_iff] at ha
    have hc : ¬(c = '.') := by
      intro hcontra
      subst hcontra
      simp at ha
    have hp : (fun x => decide (x ≠ '.')) c = true := by simp [hc]
    rw [List.cons_append,
      @List.takeWhile_cons_of_pos Char (fun x => decide (x ≠ '.')) c
        (t ++ '.' :: b) hp, ih ha.2]

theorem dropWhile_until_dot (a b : List Char) (ha : a.contains '.' = false) :
    (a ++ '.' :: b).dropWhile (fun c => c ≠ '.') = '.' :: b := by
  induction a with
  | nil => simp
  | cons c t ih =>
    simp only [List.contains_cons, Bool.or_eq_false_iff] at ha
    have hc : ¬(c = '.') := by
      intro hcontra
      subst hcontra
      simp at ha
    have hp : (fun x => decide (x ≠ '.')) c = true := by simp [hc]
    rw [List.cons_append,
      @List.dropWhile_cons_of_pos Char (fun x => decide (x ≠ '.')) c
        (t ++ '.' :: b) hp, ih ha.2]

theorem contains_dot_append (a b : List Char) :
    (a ++ '.' :: b).contains '.' = true := by
  induction a with
  | nil => simp
  | cons c t ih => simp [ih]

/-! ## Claim theorems -/

/-- **C2**: For a reference-string input `"$" ++ ref`: when `ref` has no
dot, `Step.run` binds the argument to `context.get(ref)`; when it has a
dot, to `context.get(step_name, {}).get(output_key)`, so a missing step or
a missing output key resolves to `None` without raising.  In particular,
with `context = {"a": {"x": 1, "y": 2}}`, `"$a.x"` resolves to `1`, `"$a"`
to the whole result mapping, and `"$missing.x"` to `None`. -/
theorem referenceResolutionSemantics (context : Dict) (s : String)
    (ref : List Char) (h : s.toList = '$' :: ref) :
    (ref.contains '.' = false →
      resolveValue context (Value.str s)
        = Except.ok (dictGetD context ref.asString Value.none)) ∧
    (ref.contains '.' = true →
      resolveValue context (Value.str s)
        = refLookup context (refSplit ref).1.asString (refSplit ref).2.asString ∧
      (dictGet? context (refSplit ref).1.asString = Option.none →
        resolveValue context (Value.str s) = Except.ok Value.none) ∧
      (∀ d, dictGet? context (refSplit ref).1.asString = some (Value.dict d) →
        resolveValue context (Value.str s)
          = Except.ok (dictGetD d (refSplit ref).2.asString Value.none))) ∧
    resolveValue [("a", Value.dict [("x", Value.int 1), ("y", Value.int 2)])]
      (Value.str "$a.x") = Except.ok (Value.int 1) ∧
    resolveValue [("a", Value.dict [("x", Value.int 1), ("y", Value.int 2)])]
      (Value.str "$a")
      = Except.ok (Value.dict [("x", Value.int 1), ("y", Value.int 2)]) ∧
    resolveValue [("a", Value.dict [("x", Value.int 1), ("y", Value.int 2)])]
      (Value.str "$missing.x") = Except.ok Value.none := by
  have hval := resolveValue_dollar context s ref h
  refine ⟨?_, ?_, rfl, rfl, rfl⟩
  · intro hdot
    rw [hval]
    unfold resolveRef
    simp only [hdot]
    rfl
  · intro hdot
    have h2 : resolveValue context (Value.str s)
        = refLookup context (refSplit ref).1.asString (refSplit ref).2.asString := by
      rw [hval]
      unfold resolveRef
      simp only [hdot]
      rfl
    refine ⟨h2, ?_, ?_⟩
    · intro hnone
      rw [h2]
      simp [refLookup, hnone]
    · intro d hd
      rw [h2]
      simp [refLookup, hd]

/-- Witness for C2 at `context = {"n": 3}` and input `"$n"`. -/
theorem referenceResolutionSemantics_witness :
    ("$n".toList = '$' :: ['n']) ∧
    ((['n'].contains '.' = false →
      resolveValue [("n", Value.int 3)] (Value.str "$n")
        = Except.ok (dictGetD [("n", Value.int 3)] (['n']).asString Value.none)) ∧
    (['n'].contains '.' = true →
      resolveValue [("n", Value.int 3)] (Value.str "$n")
        = refLookup [("n", Value.int 3)] (refSplit ['n']).1.asString
            (refSplit ['n']).2.asString ∧
      (dictGet? [("n", Value.int 3)] (refSplit ['n']).1.asString = Option.none →
        resolveValue [("n", Value.int 3)] (Value.str "$n") = Except.ok Value.none) ∧
      (∀ d, dictGet? [("n", Value.int 3)] (refSplit ['n']).1.asString
          = some (Value.dict d) →
        resolveValue [("n", Value.int 3)] (Value.str "$n")
          = Except.ok (dictGetD d (refSplit ['n']).2.asString Value.none))) ∧
    resolveValue [("a", Value.dict [("x", Value.int 1), ("y", Value.int 2)])]
      (Value.str "$a.x") = Except.ok (Value.int 1) ∧
    resolveValue [("a", Value.dict [("x", Value.int 1), ("y", Value.int 2)])]
      (Value.str "$a")
      = Except.ok (Value.dict [("x", Value.int 1), ("y", Value.int 2)]) ∧
    resolveValue [("a", Value.dict [("x", Value.int 1), ("y", Value.int 2)])]
      (Value.str "$missing.x") = Except.ok Value.none) :=
  ⟨rfl, referenceResolutionSemantics [("n", Value.int 3)] "$n" ['n'] rfl⟩

/-- **C3**: resolution splits a dotted reference on the first dot only: the
step name is the dot-free part before the first dot and the output key is
the entire remainder, dots included; `"$a.y.z"` resolves with step name
`"a"` and output key `"y.z"`. -/
theorem splitOnFirstDotOnly (context : Dict) (s : String) (a b : List Char)
    (h : s.toList = '$' :: (a ++ '.' :: b)) (ha : a.contains '.' = false) :
    refSplit (a ++ '.' :: b) = (a, b) ∧
    resolveValue context (Value.str s)
      = refLookup context a.asString b.asString ∧
    resolveValue [("a", Value.dict [("y.z", Value.int 7)])] (Value.str "$a.y.z")
      = Except.ok (Value.int 7) := by
  have hsplit : refSplit (a ++ '.' :: b) = (a, b) := by
    unfold refSplit
    rw [takeWhile_until_dot a b ha, dropWhile_until_dot a b ha]
    rfl
  refine ⟨hsplit, ?_, rfl⟩
  rw [resolveValue_dollar context s _ h]
  simp only [resolveRef, contains_dot_append, if_true, hsplit]

/-- Witness for C3 at `"$a.y.z"` with `a = ['a']`, `b = "y.z"`. -/
theorem splitOnFirstDotOnly_witness :
    ("$a.y.z".toList = '$' :: (['a'] ++ '.' :: ['y', '.', 'z'])) ∧
    (['a'].contains '.' = false) ∧
    (refSplit (['a'] ++ '.' :: ['y', '.', 'z']) = (['a'], ['y', '.', 'z']) ∧
    resolveValue [("a", Value.dict [("y.z", Value.int 7)])] (Value.str "$a.y.z")
      = refLookup [("a", Value.dict [("y.z", Value.int 7)])]
          (['a']).asString (['y', '.', 'z']).asString ∧
    resolveValue [("a", Value.dict [("y.z", Value.int 7)])] (Value.str "$a.y.z")
      = Except.ok (Value.int 7)) :=
  ⟨rfl, rfl, splitOnFirstDotOnly [("a", Value.dict [("y.z", Value.int 7)])]
    "$a.y.z" ['a'] ['y', '.', 'z'] rfl rfl⟩

/-- **C4**: an input value that is not a string, or a string not starting
with `$`, is delivered to the action unchanged, whatever the context. -/
theorem literalInputPassthrough (context : Dict) (v : Value)
    (h : ∀ s, v = Value.str s → s.toList.head? ≠ some '$') :
    resolveValue context v = Except.ok v ∧
    ∀ k, resolveInputs context [(k, v)] = Except.ok [(k, v)] := by
  have h1 : resolveValue context v = Except.ok v := by
    cases v with
    | str s =>
      cases hl : s.toList with
      | nil =>
        simp only [resolveValue]
        rw [hl]
      | cons c t =>
        have hc : ¬(c = '$') := by
          intro hcontra
          exact h s rfl (by rw [hl, hcontra]; rfl)
        simp only [resolveValue]
        rw [hl]
        show (if c = '$' then resolveRef context t else Except.ok (Value.str s))
          = Except.ok (Value.str s)
        rw [if_neg hc]
    | none => rfl
    | bool b => rfl
    | int n => rfl
    | dict d => rfl
  refine ⟨h1, fun k => ?_⟩
  simp [resolveInputs, resolveInputsAux, h1, dictSet]

/-- Witness for C4 at the non-reference string `"plain"` (and implicitly
any non-string value). -/
theorem literalInputPassthrough_witness :
    (∀ s, Value.str "plain" = Value.str s → s.toList.head? ≠ some '$') ∧
    (resolveValue [("plain", Value.int 9)] (Value.str "plain")
        = Except.ok (Value.str "plain") ∧
      ∀ k, resolveInputs [("plain", Value.int 9)] [(k, Value.str "plain")]
        = Except.ok [(k, Value.str "plain")]) := by
  have h : ∀ s, Value.str "plain" = Value.str s → s.toList.head? ≠ some '$' := by
    intro s hs
    cases hs
    decide
  exact ⟨h, literalInputPassthrough [("plain", Value.int 9)] (Value.str "plain") h⟩

/-- **C10**: every string input starting with `$` is interpreted as a
reference — there is no escape syntax; the bare string `"$"` resolves to
`context.get("")`, which is `None` unless the context has an
empty-string key. -/
theorem dollarAlwaysReference (context : Dict) (s : String) (t : List Char)
    (h : s.toList = '$' :: t) :
    resolveValue context (Value.str s) = resolveRef context t ∧
    (s = "$" → resolveValue context (Value.str s)
        = Except.ok (dictGetD context "" Value.none)) ∧
    resolveValue [] (Value.str "$") = Except.ok Value.none ∧
    resolveValue [("", Value.int 5)] (Value.str "$")
      = Except.ok (Value.int 5) := by
  refine ⟨resolveValue_dollar context s t h, ?_, rfl, rfl⟩
  intro hs
  subst hs
  have ht : t = [] := by
    have : ('$' : Char) :: t = ['$'] := by rw [← h]; rfl
    simpa using this.symm
  rw [resolveValue_dollar context "$" t (by rw [ht]; rfl), ht]
  rfl

/-- Witness for C10 at the bare reference `"$"`. -/
theorem dollarAlwaysReference_witness :
    ("$".toList = '$' :: ([] : List Char)) ∧
    (resolveValue [("", Value.int 5)] (Value.str "$")
        = resolveRef [("", Value.int 5)] [] ∧
      ("$" = "$" → resolveValue [("", Value.int 5)] (Value.str "$")
        = Except.ok (dictGetD [("", Value.int 5)] "" Value.none)) ∧
      resolveValue [] (Value.str "$") = Except.ok Value.none ∧
      resolveValue [("", Value.int 5)] (Value.str "$")
        = Except.ok (Value.int 5)) :=
  ⟨rfl, dollarAlwaysReference [("", Value.int 5)] "$" [] rfl⟩

/-! ## Pipeline-level helper lemmas -/

theorem finalContext_eq (p : Pipeline) (init : Option Dict) (t1 t2 : String) :
    p.finalContext init t1 t2
      = dictSet (expectedCtx p.steps (startCtx p init t1)) "_completed"
          (Value.str t2) := by
  show dictSet (runSteps p.steps (startCtx p init t1) []).2 "_completed"
      (Value.str t2) = _
  rw [runSteps_snd]

theorem run_eq (p : Pipeline) (init : Option Dict) (t1 t2 : String)
    (hnd : (p.steps.map Step.name).Nodup)
    (hnc : "_context" ∉ p.steps.map Step.name) :
    p.run init t1 t2
      = expectedEntries p.steps (startCtx p init t1)
        ++ [("_context", Value.dict (p.finalContext init t1 t2))] := by
  have hndE : ((expectedEntries p.steps (startCtx p init t1)).map Prod.fst).Nodup :=
    (expectedEntries_names_sublist p.steps (startCtx p init t1)).nodup hnd
  have hfst : (runSteps p.steps (startCtx p init t1) []).1
      = expectedEntries p.steps (startCtx p init t1) := by
    have := runSteps_fst p.steps (startCtx p init t1) []
      (by intro n hn; simp [dictKeys]) hndE
    simpa using this
  have hctx_not : "_context"
      ∉ dictKeys (expectedEntries p.steps (startCtx p init t1)) := by
    intro hmem
    exact hnc ((expectedEntries_names_sublist p.steps (startCtx p init t1)).subset hmem)
  show dictSet (runSteps p.steps (startCtx p init t1) []).1 "_context"
      (Value.dict (p.finalContext init t1 t2)) = _
  rw [hfst, dictSet_of_not_mem _ _ _ hctx_not]

theorem expected_names_take (p : Pipeline) (init : Option Dict) (t1 : String)
    (i : Nat) (m : String)
    (hf : firstFailure p.steps (startCtx p init t1) = some (i, m)) :
    (expectedEntries p.steps (startCtx p init t1)).map Prod.fst
      = (p.steps.map Step.name).take (i + 1) := by
  obtain ⟨hi, hsn, hexp, _⟩ := firstFailure_spec p.steps (startCtx p init t1) i m hf
  rw [hexp, List.map_append, hsn]
  have hi' : i < (p.steps.map Step.name).length := by simpa using hi
  have hconc := List.take_concat_get (p.steps.map Step.name) i hi'
  rw [List.concat_eq_append] at hconc
  rw [← hconc]
  congr 1
  simp [List.get_eq_getElem]

/-! ## Pipeline claim theorems -/

/-- **C1**: when the steps before index `i` succeed and the step at index
`i` raises with message `m`, `Pipeline.run` returns results with an entry
for every step at indices `0..i` (the one at `i` being `{"error": m}`),
no entry for any step after `i`, and the returned context binds `_error`
to `m`. -/
theorem failureStopsPipeline (p : Pipeline) (init : Option Dict)
    (t1 t2 : String) (i : Nat) (m : String)
    (hnd : (p.steps.map Step.name).Nodup)
    (hnc : "_context" ∉ p.steps.map Step.name)
    (hf : firstFailure p.steps (startCtx p init t1) = some (i, m)) :
    ∃ hi : i < p.steps.length,
      (∀ j, ∀ hj : j < p.steps.length, j ≤ i →
        (p.steps.get ⟨j, hj⟩).name ∈ dictKeys (p.run init t1 t2)) ∧
      dictGet? (p.run init t1 t2) (p.steps.get ⟨i, hi⟩).name
        = some (errEntry m) ∧
      (∀ j, ∀ hj : j < p.steps.length, i < j →
        (p.steps.get ⟨j, hj⟩).name ∉ dictKeys (p.run init t1 t2)) ∧
      dictGet? (p.finalContext init t1 t2) "_error" = some (Value.str m) := by
  obtain ⟨hi, hsn, hexp, herr⟩ :=
    firstFailure_spec p.steps (startCtx p init t1) i m hf
  have hrun := run_eq p init t1 t2 hnd hnc
  have hnames := expected_names_take p init t1 i m hf
  have hndE : ((expectedEntries p.steps (startCtx p init t1)).map Prod.fst).Nodup :=
    (expectedEntries_names_sublist p.steps (startCtx p init t1)).nodup hnd
  have hkeys : dictKeys (p.run init t1 t2)
      = (p.steps.map Step.name).take (i + 1) ++ ["_context"] := by
    rw [hrun]
    simp only [dictKeys, List.map_append, List.map_cons, List.map_nil]
    rw [show (expectedEntries p.steps (startCtx p init t1)).map Prod.fst
      = (p.steps.map Step.name).take (i + 1) from hnames]
  refine ⟨hi, ?_, ?_, ?_, ?_⟩
  · intro j hj hji
    rw [hkeys]
    refine List.mem_append.mpr (Or.inl ?_)
    have hj' : j < (p.steps.map Step.name).length := by simpa using hj
    have hmem := get_mem_take (p.steps.map Step.name) (i + 1) j hj' (by omega)
    have hgm : (p.steps.map Step.name).get ⟨j, hj'⟩
        = (p.steps.get ⟨j, hj⟩).name := by
      simp [List.get_eq_getElem]
    rwa [hgm] at hmem
  · rw [hrun, dictGet?_append]
    have hmem : ((p.steps.get ⟨i, hi⟩).name, errEntry m)
        ∈ expectedEntries p.steps (startCtx p init t1) := by
      rw [hexp]
      exact List.mem_append_right _ (List.mem_singleton.mpr rfl)
    rw [dictGet?_of_mem_nodup _ _ _ hmem hndE]
  · intro j hj hij
    rw [hkeys]
    intro hmem
    rcases List.mem_append.mp hmem with hmem1 | hmem2
    · have hj' : j < (p.steps.map Step.name).length := by simpa using hj
      have hgm : (p.steps.get ⟨j, hj⟩).name
          = (p.steps.map Step.name).get ⟨j, hj'⟩ := by
        simp [List.get_eq_getElem]
      rw [hgm] at hmem1
      exact get_not_mem_take (p.steps.map Step.name) hnd (i + 1) j hj'
        (by omega) hmem1
    · have hc : (p.steps.get ⟨j, hj⟩).name = "_context" := by simpa using hmem2
      refine hnc ?_
      rw [← hc]
      exact List.mem_map_of_mem Step.name (List.get_mem p.steps j hj)
  · rw [finalContext_eq, dictGet?_set_ne _ _ _ _ (by decide)]
    exact herr

/-- Witness for C1: the four-step demonstration pipeline failing at
index 1 with message `boom`. -/
theorem failureStopsPipeline_witness :
    ((demoPipeline.steps.map Step.name).Nodup ∧
      "_context" ∉ demoPipeline.steps.map Step.name ∧
      firstFailure demoPipeline.steps (startCtx demoPipeline Option.none "t1")
        = some (1, "boom")) ∧
    (∃ hi : 1 < demoPipeline.steps.length,
      (∀ j, ∀ hj : j < demoPipeline.steps.length, j ≤ 1 →
        (demoPipeline.steps.get ⟨j, hj⟩).name
          ∈ dictKeys (demoPipeline.run Option.none "t1" "t2")) ∧
      dictGet? (demoPipeline.run Option.none "t1" "t2")
          (demoPipeline.steps.get ⟨1, hi⟩).name = some (errEntry "boom") ∧
      (∀ j, ∀ hj : j < demoPipeline.steps.length, 1 < j →
        (demoPipeline.steps.get ⟨j, hj⟩).name
          ∉ dictKeys (demoPipeline.run Option.none "t1" "t2")) ∧
      dictGet? (demoPipeline.finalContext Option.none "t1" "t2") "_error"
        = some (Value.str "boom")) :=
  ⟨⟨by decide, by decide, rfl⟩,
    failureStopsPipeline demoPipeline Option.none "t1" "t2" 1 "boom"
      (by decide) (by decide) rfl⟩

/-- **C5**: `Pipeline.run` never raises because of a step failure: a
results mapping (with its `_context` entry) is always handed back, and any
exception raised by a step is converted to `{"error": m}` in the results
and `_error` in the context. -/
theorem actionErrorsAreCaptured (p : Pipeline) (init : Option Dict)
    (t1 t2 : String)
    (hnd : (p.steps.map Step.name).Nodup)
    (hnc : "_context" ∉ p.steps.map Step.name) :
    dictGet? (p.run init t1 t2) "_context"
      = some (Value.dict (p.finalContext init t1 t2)) ∧
    ∀ i m, firstFailure p.steps (startCtx p init t1) = some (i, m) →
      ∃ hi : i < p.steps.length,
        dictGet? (p.run init t1 t2) (p.steps.get ⟨i, hi⟩).name
          = some (errEntry m) ∧
        dictGet? (p.finalContext init t1 t2) "_error" = some (Value.str m) := by
  constructor
  · show dictGet? (dictSet (runSteps p.steps (startCtx p init t1) []).1
        "_context" (Value.dict (p.finalContext init t1 t2))) "_context" = _
    exact dictGet?_set_self _ _ _
  · intro i m hf
    obtain ⟨hi, hsn, hexp, herr⟩ :=
      firstFailure_spec p.steps (startCtx p init t1) i m hf
    have hndE : ((expectedEntries p.steps (startCtx p init t1)).map Prod.fst).Nodup :=
      (expectedEntries_names_sublist p.steps (startCtx p init t1)).nodup hnd
    refine ⟨hi, ?_, ?_⟩
    · rw [run_eq p init t1 t2 hnd hnc, dictGet?_append]
      have hmem : ((p.steps.get ⟨i, hi⟩).name, errEntry m)
          ∈ expectedEntries p.steps (startCtx p init t1) := by
        rw [hexp]
        exact List.mem_append_right _ (List.mem_singleton.mpr rfl)
      rw [dictGet?_of_mem_nodup _ _ _ hmem hndE]
    · rw [finalContext_eq, dictGet?_set_ne _ _ _ _ (by decide)]
      exact herr

/-- Witness for C5: the demonstration pipeline whose step 1 raises. -/
theorem actionErrorsAreCaptured_witness :
    ((demoPipeline.steps.map Step.name).Nodup ∧
      "_context" ∉ demoPipeline.steps.map Step.name) ∧
    (dictGet? (demoPipeline.run Option.none "t1" "t2") "_context"
      = some (Value.dict (demoPipeline.finalContext Option.none "t1" "t2")) ∧
    ∀ i m, firstFailure demoPipeline.steps
        (startCtx demoPipeline Option.none "t1") = some (i, m) →
      ∃ hi : i < demoPipeline.steps.length,
        dictGet? (demoPipeline.run Option.none "t1" "t2")
          (demoPipeline.steps.get ⟨i, hi⟩).name = some (errEntry m) ∧
        dictGet? (demoPipeline.finalContext Option.none "t1" "t2") "_error"
          = some (Value.str m)) :=
  ⟨⟨by decide, by decide⟩,
    actionErrorsAreCaptured demoPipeline Option.none "t1" "t2"
      (by decide) (by decide)⟩

/-- **C6**: the mapping returned by `Pipeline.run` consists of one entry
per executed step (name → result mapping or `{"error": m}`) plus exactly
one reserved `_context` entry holding the full final context (which
contains `_pipeline`, `_started`, `_completed`, and, on failure,
`_error`); the number of entries excluding `_context` is at most the
number of steps. -/
theorem resultShape (p : Pipeline) (init : Option Dict) (t1 t2 : String)
    (hnd : (p.steps.map Step.name).Nodup)
    (hnc : "_context" ∉ p.steps.map Step.name) :
    p.run init t1 t2
      = expectedEntries p.steps (startCtx p init t1)
        ++ [("_context", Value.dict (p.finalContext init t1 t2))] ∧
    dictGet? (p.run init t1 t2) "_context"
      = some (Value.dict (p.finalContext init t1 t2)) ∧
    (∀ n r, (n, r) ∈ expectedEntries p.steps (startCtx p init t1) →
      dictGet? (p.run init t1 t2) n = some r) ∧
    (p.run init t1 t2).length ≤ p.steps.length + 1 ∧
    "_pipeline" ∈ dictKeys (p.finalContext init t1 t2) ∧
    "_started" ∈ dictKeys (p.finalContext init t1 t2) ∧
    "_completed" ∈ dictKeys (p.finalContext init t1 t2) ∧
    (∀ i m, firstFailure p.steps (startCtx p init t1) = some (i, m) →
      dictGet? (p.finalContext init t1 t2) "_error" = some (Value.str m)) := by
  have hndE : ((expectedEntries p.steps (startCtx p init t1)).map Prod.fst).Nodup :=
    (expectedEntries_names_sublist p.steps (startCtx p init t1)).nodup hnd
  refine ⟨run_eq p init t1 t2 hnd hnc, ?_, ?_, ?_, ?_, ?_, ?_, ?_⟩
  · show dictGet? (dictSet (runSteps p.steps (startCtx p init t1) []).1
        "_context" (Value.dict (p.finalContext init t1 t2))) "_context" = _
    exact dictGet?_set_self _ _ _
  · intro n r hmem
    rw [run_eq p init t1 t2 hnd hnc, dictGet?_append,
      dictGet?_of_mem_nodup _ _ _ hmem hndE]
  · have hlen := runSteps_fst_length p.steps (startCtx p init t1) []
    have hset := dictSet_length_le (runSteps p.steps (startCtx p init t1) []).1
      "_context" (Value.dict (p.finalContext init t1 t2))
    show (dictSet (runSteps p.steps (startCtx p init t1) []).1
        "_context" (Value.dict (p.finalContext init t1 t2))).length ≤ _
    simp only [List.length_nil] at hlen
    omega
  · rw [finalContext_eq]
    refine mem_dictKeys_set _ _ _ _ (mem_dictKeys_expectedCtx _ _ _ ?_)
    exact mem_dictKeys_set _ _ _ _ (set_mem_dictKeys _ "_pipeline" _)
  · rw [finalContext_eq]
    exact mem_dictKeys_set _ _ _ _ (mem_dictKeys_expectedCtx _ _ _
      (set_mem_dictKeys _ "_started" _))
  · rw [finalContext_eq]
    exact set_mem_dictKeys _ "_completed" _
  · intro i m hf
    obtain ⟨_, _, _, herr⟩ :=
      firstFailure_spec p.steps (startCtx p init t1) i m hf
    rw [finalContext_eq, dictGet?_set_ne _ _ _ _ (by decide)]
    exact herr

/-- Witness for C6: the demonstration pipeline failing at index 1. -/
theorem resultShape_witness :
    ((demoPipeline.steps.map Step.name).Nodup ∧
      "_context" ∉ demoPipeline.steps.map Step.name) ∧
    (demoPipeline.run Option.none "t1" "t2"
      = expectedEntries demoPipeline.steps (startCtx demoPipeline Option.none "t1")
        ++ [("_context", Value.dict (demoPipeline.finalContext Option.none "t1" "t2"))] ∧
    dictGet? (demoPipeline.run Option.none "t1" "t2") "_context"
      = some (Value.dict (demoPipeline.finalContext Option.none "t1" "t2")) ∧
    (∀ n r, (n, r) ∈ expectedEntries demoPipeline.steps
        (startCtx demoPipeline Option.none "t1") →
      dictGet? (demoPipeline.run Option.none "t1" "t2") n = some r) ∧
    (demoPipeline.run Option.none "t1" "t2").length
      ≤ demoPipeline.steps.length + 1 ∧
    "_pipeline" ∈ dictKeys (demoPipeline.finalContext Option.none "t1" "t2") ∧
    "_started" ∈ dictKeys (demoPipeline.finalContext Option.none "t1" "t2") ∧
    "_completed" ∈ dictKeys (demoPipeline.finalContext Option.none "t1" "t2") ∧
    (∀ i m, firstFailure demoPipeline.steps
        (startCtx demoPipeline Option.none "t1") = some (i, m) →
      dictGet? (demoPipeline.finalContext Option.none "t1" "t2") "_error"
        = some (Value.str m))) :=
  ⟨⟨by decide, by decide⟩,
    resultShape demoPipeline Option.none "t1" "t2" (by decide) (by decide)⟩

/-- **C7**: the final context holds the caller-seeded entries and the
reserved keys plus exactly one entry per successfully completed step
(bound to that step's raw result); only the orchestrator writes to the
context, and a failed step's name is recorded in results but never added
to the context. -/
theorem contextInvariant (p : Pipeline) (init : Option Dict) (t1 t2 : String)
    (hnd : (p.steps.map Step.name).Nodup)
    (hdisj : ∀ n ∈ p.steps.map Step.name, n ∉ dictKeys (startCtx p init t1))
    (herr : "_error" ∉ p.steps.map Step.name)
    (hcomp : "_completed" ∉ p.steps.map Step.name)
    (hce : "_error" ∉ dictKeys (startCtx p init t1))
    (hcc : "_completed" ∉ dictKeys (startCtx p init t1)) :
    p.finalContext init t1 t2
      = startCtx p init t1
        ++ successEntries p.steps (startCtx p init t1)
        ++ (match firstFailure p.steps (startCtx p init t1) with
            | some q => [("_error", Value.str q.2)]
            | Option.none => [])
        ++ [("_completed", Value.str t2)] ∧
    (∀ n r, (n, r) ∈ successEntries p.steps (startCtx p init t1) →
      dictGet? (p.finalContext init t1 t2) n = some r) ∧
    (∀ i m, ∀ hi : i < p.steps.length,
      firstFailure p.steps (startCtx p init t1) = some (i, m) →
      (p.steps.get ⟨i, hi⟩).name ∉ dictKeys (p.finalContext init t1 t2)) := by
  set γ := startCtx p init t1 with hγ
  have hsub := successEntries_names_sublist p.steps γ
  have hS : ∀ n ∈ (successEntries p.steps γ).map Prod.fst,
      n ∈ p.steps.map Step.name := fun n hn => hsub.subset hn
  have h1 : ∀ n ∈ (successEntries p.steps γ).map Prod.fst, n ∉ dictKeys γ :=
    fun n hn => hdisj n (hS n hn)
  have h2 : ((successEntries p.steps γ).map Prod.fst).Nodup := hsub.nodup hnd
  have herrS : "_error" ∉ (successEntries p.steps γ).map Prod.fst :=
    fun hc => herr (hS _ hc)
  have hcompS : "_completed" ∉ (successEntries p.steps γ).map Prod.fst :=
    fun hc => hcomp (hS _ hc)
  have hctx_eq : expectedCtx p.steps γ
      = γ ++ successEntries p.steps γ
        ++ (match firstFailure p.steps γ with
            | some q => [("_error", Value.str q.2)]
            | Option.none => []) := by
    cases hff : firstFailure p.steps γ with
    | none =>
      rw [expectedCtx_none p.steps γ hff h1 h2]
      simp
    | some q =>
      obtain ⟨i, m⟩ := q
      rw [expectedCtx_fail p.steps γ i m hff h1 h2 hce herrS]
  have hcomp_not : "_completed" ∉ dictKeys (expectedCtx p.steps γ) := by
    rw [hctx_eq]
    simp only [dictKeys, List.map_append, List.mem_append]
    push_neg
    refine ⟨⟨by simpa [dictKeys] using hcc, by simpa using hcompS⟩, ?_⟩
    cases hff : firstFailure p.steps γ with
    | none => simp
    | some q => simp
  have hfinal : p.finalContext init t1 t2
      = γ ++ successEntries p.steps γ
        ++ (match firstFailure p.steps γ with
            | some q => [("_error", Value.str q.2)]
            | Option.none => [])
        ++ [("_completed", Value.str t2)] := by
    rw [finalContext_eq, dictSet_of_not_mem _ _ _ hcomp_not, hctx_eq]
  refine ⟨hfinal, ?_, ?_⟩
  · intro n r hmem
    have hnS : n ∈ (successEntries p.steps γ).map Prod.fst :=
      List.mem_map_of_mem Prod.fst hmem
    rw [hfinal, dictGet?_append, dictGet?_append, dictGet?_append,
      dictGet?_eq_none_of_not_mem γ n (h1 n hnS),
      dictGet?_of_mem_nodup _ _ _ hmem h2]
  · intro i m hi hff
    obtain ⟨hi', hsn, _, _⟩ := firstFailure_spec p.steps γ i m hff
    intro hmem
    rw [hfinal] at hmem
    simp only [dictKeys, List.map_append, List.mem_append] at hmem
    have hname : (p.steps.get ⟨i, hi⟩).name ∈ p.steps.map Step.name :=
      List.mem_map_of_mem Step.name (List.get_mem p.steps i hi)
    rcases hmem with ((hm1 | hm2) | hm3) | hm4
    · exact hdisj _ hname (by simpa [dictKeys] using hm1)
    · have hm2' : (p.steps.get ⟨i, hi⟩).name
          ∈ (p.steps.map Step.name).take i := by
        rw [← hsn]
        simpa using hm2
      have hgm : (p.steps.get ⟨i, hi⟩).name
          = (p.steps.map Step.name).get ⟨i, by simpa using hi⟩ := by
        simp [List.get_eq_getElem]
      rw [hgm] at hm2'
      exact get_not_mem_take (p.steps.map Step.name) hnd i i
        (by simpa using hi) (Nat.le_refl i) hm2'
    · rw [hff] at hm3
      have : (p.steps.get ⟨i, hi⟩).name = "_error" := by simpa using hm3
      exact herr (this ▸ hname)
    · have : (p.steps.get ⟨i, hi⟩).name = "_completed" := by simpa using hm4
      exact hcomp (this ▸ hname)

/-- Witness for C7: the demonstration pipeline failing at index 1, run
with no caller-supplied context. -/
theorem contextInvariant_witness :
    ((demoPipeline.steps.map Step.name).Nodup ∧
      (∀ n ∈ demoPipeline.steps.map Step.name,
        n ∉ dictKeys (startCtx demoPipeline Option.none "t1")) ∧
      "_error" ∉ demoPipeline.steps.map Step.name ∧
      "_completed" ∉ demoPipeline.steps.map Step.name ∧
      "_error" ∉ dictKeys (startCtx demoPipeline Option.none "t1") ∧
      "_completed" ∉ dictKeys (startCtx demoPipeline Option.none "t1")) ∧
    (demoPipeline.finalContext Option.none "t1" "t2"
      = startCtx demoPipeline Option.none "t1"
        ++ successEntries demoPipeline.steps (startCtx demoPipeline Option.none "t1")
        ++ (match firstFailure demoPipeline.steps
              (startCtx demoPipeline Option.none "t1") with
            | some q => [("_error", Value.str q.2)]
            | Option.none => [])
        ++ [("_completed", Value.str "t2")] ∧
    (∀ n r, (n, r) ∈ successEntries demoPipeline.steps
        (startCtx demoPipeline Option.none "t1") →
      dictGet? (demoPipeline.finalContext Option.none "t1" "t2") n = some r) ∧
    (∀ i m, ∀ hi : i < demoPipeline.steps.length,
      firstFailure demoPipeline.steps (startCtx demoPipeline Option.none "t1")
        = some (i, m) →
      (demoPipeline.steps.get ⟨i, hi⟩).name
        ∉ dictKeys (demoPipeline.finalContext Option.none "t1" "t2"))) :=
  ⟨⟨by decide, by decide, by decide, by decide, by decide, by decide⟩,
    contextInvariant demoPipeline Option.none "t1" "t2" (by decide) (by decide)
      (by decide) (by decide) (by decide) (by decide)⟩

/-- **C8 counterexample**: `Pipeline.run` does not copy a non-empty
caller-supplied `initial_context`: `context = initial_context or {}`
aliases it, so after running even an empty pipeline on
`{"seed": 1}` the caller's mapping has changed (it gained `_pipeline`,
`_started`, `_completed`). -/
theorem initialContextCopied_cex :
    callerContextAfterRun emptyPipeline seededInit "t1" "t2" ≠ seededInit :=
  fun h => absurd (congrArg List.length h) (by decide)

/-- **C8 (amended)**: `Pipeline.run` uses the caller's `initial_context`
mapping itself as the working context whenever that mapping is non-empty,
mutating it in place so that after `run` returns it equals the final
execution context (in particular it now binds `_completed`); only when
`initial_context` is `None` or empty is a fresh empty mapping used,
leaving the caller's mapping unchanged. -/
theorem initialContextAliased (p : Pipeline) (init : Dict) (t1 t2 : String)
    (h : init ≠ []) :
    callerContextAfterRun p init t1 t2 = p.finalContext (some init) t1 t2 ∧
    callerContextAfterRun p [] t1 t2 = [] ∧
    dictGet? (callerContextAfterRun p init t1 t2) "_completed"
      = some (Value.str t2) := by
  have hne : init.isEmpty = false := by
    cases init with
    | nil => exact absurd rfl h
    | cons a l => rfl
  have halias : callerContextAfterRun p init t1 t2
      = p.finalContext (some init) t1 t2 := by
    unfold callerContextAfterRun
    rw [hne]
    rfl
  refine ⟨halias, rfl, ?_⟩
  rw [halias, finalContext_eq]
  exact dictGet?_set_self _ _ _

/-- Witness for C8 (amended): the seeded context `{"seed": 1}`. -/
theorem initialContextAliased_witness :
    (seededInit ≠ []) ∧
    (callerContextAfterRun emptyPipeline seededInit "t1" "t2"
      = emptyPipeline.finalContext (some seededInit) "t1" "t2" ∧
    callerContextAfterRun emptyPipeline [] "t1" "t2" = [] ∧
    dictGet? (callerContextAfterRun emptyPipeline seededInit "t1" "t2")
      "_completed" = some (Value.str "t2")) :=
  ⟨by simp [seededInit],
    initialContextAliased emptyPipeline seededInit "t1" "t2"
      (by simp [seededInit])⟩

/-- **C9**: with deterministic actions and no shared mutable external
state (the wall clock is modelled by the explicit timestamp parameters,
held fixed), running the same `Pipeline` object twice produces
structurally identical results. -/
theorem runTwiceDeterministic (p : Pipeline) (t1 t2 t3 t4 : String)
    (h1 : t1 = t3) (h2 : t2 = t4) :
    (p.runTwice t1 t2 t3 t4).1 = (p.runTwice t1 t2 t3 t4).2 := by
  subst h1
  subst h2
  rfl

/-- Witness for C9: the all-success demonstration pipeline run twice. -/
theorem runTwiceDeterministic_witness :
    ("t1" = "t1" ∧ "t2" = "t2") ∧
    (goodPipeline.runTwice "t1" "t2" "t1" "t2").1
      = (goodPipeline.runTwice "t1" "t2" "t1" "t2").2 :=
  ⟨⟨rfl, rfl⟩, runTwiceDeterministic goodPipeline "t1" "t2" "t1" "t2" rfl rfl⟩

